import Mathlib

/-!
Verification of the `ai-dlc` CLI scaffolder (crates/ai-dlc-cli/src/main.rs).

The embedded template catalog (`include_dir`) is a read-only tree of
directories and files; paths are modelled as lists of path components
(`List String`), file contents as byte lists (`List Nat`).  The real
filesystem is modelled as a pair of maps: which directory paths exist and
what bytes each file path holds.  Fallible filesystem primitives
(`create_dir_all`, `fs::write`) are driven by an environment oracle that
says at which paths they fail, so both the success path and the
error-propagation path of `extract_dir` are represented.  `Path::new(".")`
(the process working directory) is modelled by passing the working
directory's path as the destination root.
-/

namespace AiDlc

/-- A node of the embedded template tree (`include_dir::DirEntry`): a file
owns its relative path and byte contents, a directory owns its relative
path and its children in embedding order. -/
inductive Entry where
  | file (path : List String) (contents : List Nat) : Entry
  | dir (path : List String) (entries : List Entry) : Entry

/-- Relative path of an entry (`DirEntry::path`). -/
def Entry.path : Entry → List String
  | .file p _ => p
  | .dir p _ => p

/-- The on-disk state touched by the scaffolder: which directory paths
exist and the byte contents stored at each file path. -/
structure FS where
  dirs : List String → Bool
  files : List String → Option (List Nat)

/-- Model of `std::fs::create_dir_all`: the path and every ancestor
(prefix) of it become existing directories; pre-existing directories are
untouched (idempotent). -/
def FS.createDirAll (fs : FS) (p : List String) : FS :=
  { fs with dirs := fun q => q.isPrefixOf p || fs.dirs q }

/-- Model of `std::fs::write`: stores the bytes at the path, silently
overwriting any previous contents. -/
def FS.writeFile (fs : FS) (p : List String) (c : List Nat) : FS :=
  { fs with files := fun q => if q = p then some c else fs.files q }

/-- A filesystem with no directories and no files. -/
def emptyFS : FS := ⟨fun _ => false, fun _ => none⟩

/-- Failure oracle for the two fallible filesystem primitives: at which
paths `create_dir_all` fails and at which paths `fs::write` fails
(permissions, invalid path, disk full, ...). -/
structure Env where
  failCreate : List String → Bool
  failWrite : List String → Bool

/-- The environment in which no filesystem operation fails. -/
def okEnv : Env := ⟨fun _ => false, fun _ => false⟩

/-- The wrapped errors produced by `extract_dir`, mirroring the three
`with_context` messages: "Failed to create directory", "Failed to create
parent directory", "Failed to write file"; each carries the offending
path. -/
inductive ExtErr where
  | createDir (path : List String)
  | createParent (path : List String)
  | writeFile (path : List String)
deriving DecidableEq

/-- The offending path carried by a wrapped extraction error. -/
def ExtErr.path : ExtErr → List String
  | .createDir p => p
  | .createParent p => p
  | .writeFile p => p

/-- Whether the environment indeed reports a failure for the operation and
path named by the error. -/
def ExtErr.envFails (env : Env) : ExtErr → Bool
  | .createDir p => env.failCreate p
  | .createParent p => env.failCreate p
  | .writeFile p => env.failWrite p

/-- Model of `path.strip_prefix(pre).unwrap_or_else(|_| path)` on
component lists: drop `pre` from the front when it is a prefix, otherwise
fall back to the unmodified path. -/
def stripPrefixOr (p pre : List String) : List String :=
  if pre.isPrefixOf p then p.drop pre.length else p

/-- The entry loop of `extract_dir` (main.rs lines 105-126).  Each entry's
target path is `dest_root.join(strip-or-fallback of its path)`.  A file
entry first ensures its target's parent directory exists (when the target
path is nonempty, i.e. `path.parent()` is `Some`), then writes its bytes.
A directory entry is handled by the recursive `extract_dir` call, whose
body (compute the directory's own target, create it, recurse over its
entries, main.rs lines 97-103) is inlined here as the `Entry.dir` case.
Any failing operation aborts immediately with the wrapped error (the `?`
operator); the filesystem reached so far is returned alongside. -/
def extractEntries (env : Env) (destRoot pre : List String) :
    List Entry → FS → FS × Option ExtErr
  | [], fs => (fs, none)
  | Entry.file p c :: rest, fs =>
    let path := destRoot ++ stripPrefixOr p pre
    if path = [] then
      if env.failWrite path then (fs, some (ExtErr.writeFile path))
      else extractEntries env destRoot pre rest (fs.writeFile path c)
    else
      let parent := path.dropLast
      if env.failCreate parent then (fs, some (ExtErr.createParent parent))
      else
        let fs1 := fs.createDirAll parent
        if env.failWrite path then (fs1, some (ExtErr.writeFile path))
        else extractEntries env destRoot pre rest (fs1.writeFile path c)
  | Entry.dir p children :: rest, fs =>
    let dirTarget := destRoot ++ stripPrefixOr p pre
    if env.failCreate dirTarget then (fs, some (ExtErr.createDir dirTarget))
    else
      match extractEntries env destRoot pre children (fs.createDirAll dirTarget) with
      | (fs', none) => extractEntries env destRoot pre rest fs'
      | (fs', some err) => (fs', some err)

/-- Model of `extract_dir(embedded_dir, dest_root, strip_prefix)`
(main.rs lines 96-128): compute the directory's target path by
strip-or-fallback joined onto the destination root, create it (and
missing ancestors), then process the entries in catalog order. -/
def extract_dir (env : Env) (dirPath : List String) (es : List Entry)
    (destRoot pre : List String) (fs : FS) : FS × Option ExtErr :=
  let dirTarget := destRoot ++ stripPrefixOr dirPath pre
  if env.failCreate dirTarget then (fs, some (ExtErr.createDir dirTarget))
  else extractEntries env destRoot pre es (fs.createDirAll dirTarget)

/-- The immediate child directories of a directory's entry list, in catalog
order (`Dir::dirs()`): files are skipped, children are not recursed into. -/
def dirsOf : List Entry → List (List String × List Entry)
  | [] => []
  | Entry.file _ _ :: rest => dirsOf rest
  | Entry.dir p children :: rest => (p, children) :: dirsOf rest

/-- The hidden-subdirectory search of `handle_scaffold` (main.rs lines
66-69): `provider_dir.dirs().find(|d| d.path().file_name() ==
Some(target_name))`: the first immediate child directory whose final path
component equals the wanted name. -/
def findChildDirectory (es : List Entry) (name : String) :
    Option (List String × List Entry) :=
  (dirsOf es).find? (fun d => d.1.getLast? == some name)

/-- Modelled from the spec: `getDirectory(name)` of the Template Catalog,
the `include_dir::Dir::get_dir` lookup (the crate's code is not part of
this repository): exact-match lookup of a directory by its relative path,
descending into children, returning nothing (not an error) when absent. -/
def get_dir : List Entry → List String → Option (List String × List Entry)
  | [], _ => none
  | Entry.file _ _ :: rest, target => get_dir rest target
  | Entry.dir p children :: rest, target =>
    if p = target then some (p, children)
    else
      match get_dir children target with
      | some d => some d
      | none => get_dir rest target

/-- Splits a list of characters at every path separator. -/
def splitSlash : List Char → List (List Char)
  | [] => [[]]
  | c :: cs =>
    if c = '/' then [] :: splitSlash cs
    else
      match splitSlash cs with
      | [] => [[c]]
      | s :: rest => (c :: s) :: rest

/-- Model of `Path::new(s)` on a provider-name string: its component list
(split at separators; the empty string has no components). -/
def stringToPath (s : String) : List String :=
  if s = "" then [] else (splitSlash s.toList).map fun cs => String.mk cs

/-- Model of `path.to_str().unwrap().to_string()` for a catalog path that
is valid UTF-8 (see `allExpansion` for the panic aspect): the textual form
of a component list. -/
def pathToString (p : List String) : String := String.intercalate "/" p

/-- The names the `all` flag expands to (main.rs lines 44-47): every
top-level directory's relative path as a string, in catalog order. -/
def listTopLevelNames (catalog : List Entry) : List String :=
  (dirsOf catalog).map fun d => pathToString d.1

/-- The parsed `scaffold` arguments: the repeatable explicit provider
list and the `all` flag. -/
structure ScaffoldArgs where
  provider : List String
  all : Bool

/-- Provider resolution (main.rs lines 43-53): with the `all` flag, every
top-level catalog name; otherwise the explicit list, except that an empty
explicit list is the no-op early return (`none` here), modelling
`return Ok(())` after the warning. -/
def providersToScaffold (catalog : List Entry) (args : ScaffoldArgs) :
    Option (List String) :=
  if args.all then some (listTopLevelNames catalog)
  else if args.provider = [] then none
  else some args.provider

/-- The loop body of `handle_scaffold` for one provider name (main.rs
lines 57-90): look the provider up in the catalog (skip with a warning
when absent), search its immediate child directories for the hidden
directory named `"." ++ name` (skip with a warning when absent), and
extract it into the working directory with the strip prefix set to the
provider directory's own path. -/
def scaffoldOne (env : Env) (catalog : List Entry) (name : String)
    (cwd : List String) (fs : FS) : FS × Option ExtErr :=
  match get_dir catalog (stringToPath name) with
  | none => (fs, none)
  | some pd =>
    match findChildDirectory pd.2 ("." ++ name) with
    | none => (fs, none)
    | some hd => extract_dir env hd.1 hd.2 cwd pd.1 fs

/-- The provider loop of `handle_scaffold`: providers are processed in
list order; a failing extraction aborts the run (the `?` operator), a
skipped provider contributes nothing. -/
def scaffoldProviders (env : Env) (catalog : List Entry) (names : List String)
    (cwd : List String) (fs : FS) : FS × Option ExtErr :=
  match names with
  | [] => (fs, none)
  | n :: rest =>
    match scaffoldOne env catalog n cwd fs with
    | (fs', none) => scaffoldProviders env catalog rest cwd fs'
    | (fs', some err) => (fs', some err)

/-- Model of `handle_scaffold(args)` (main.rs lines 40-94), with the
embedded catalog, the failure oracle, the working directory (the meaning
of `Path::new(".")`) and the initial filesystem made explicit.  Returns
the final filesystem and `none` on the `Ok(())` exit. -/
def handle_scaffold (env : Env) (catalog : List Entry) (args : ScaffoldArgs)
    (cwd : List String) (fs : FS) : FS × Option ExtErr :=
  match providersToScaffold catalog args with
  | none => (fs, none)
  | some names => scaffoldProviders env catalog names cwd fs

/-- A single filesystem mutation performed during extraction. -/
inductive FSOp where
  | mkdirAll (p : List String)
  | write (p : List String) (c : List Nat)
deriving DecidableEq

/-- Applies one filesystem mutation. -/
def applyOp (fs : FS) : FSOp → FS
  | .mkdirAll p => fs.createDirAll p
  | .write p c => fs.writeFile p c

/-- Applies a sequence of filesystem mutations, first to last. -/
def applyOps (fs : FS) (ops : List FSOp) : FS := ops.foldl applyOp fs

/-- The sequence of filesystem mutations the entry loop performs, together
with the error it stops at, mirroring `extractEntries` branch for branch.
The mutation sequence depends only on the tree and the failure oracle,
never on the current filesystem: extraction reads nothing back from disk. -/
def traceEntries (env : Env) (destRoot pre : List String) :
    List Entry → List FSOp × Option ExtErr
  | [] => ([], none)
  | Entry.file p c :: rest =>
    let path := destRoot ++ stripPrefixOr p pre
    if path = [] then
      if env.failWrite path then ([], some (ExtErr.writeFile path))
      else
        let r := traceEntries env destRoot pre rest
        (FSOp.write path c :: r.1, r.2)
    else
      let parent := path.dropLast
      if env.failCreate parent then ([], some (ExtErr.createParent parent))
      else if env.failWrite path then
        ([FSOp.mkdirAll parent], some (ExtErr.writeFile path))
      else
        let r := traceEntries env destRoot pre rest
        (FSOp.mkdirAll parent :: FSOp.write path c :: r.1, r.2)
  | Entry.dir p children :: rest =>
    let dirTarget := destRoot ++ stripPrefixOr p pre
    if env.failCreate dirTarget then ([], some (ExtErr.createDir dirTarget))
    else
      match traceEntries env destRoot pre children with
      | (ops, some err) => (FSOp.mkdirAll dirTarget :: ops, some err)
      | (ops, none) =>
        let r := traceEntries env destRoot pre rest
        (FSOp.mkdirAll dirTarget :: (ops ++ r.1), r.2)

/-- The mutation sequence and stopping error of `extract_dir`. -/
def traceDir (env : Env) (dirPath : List String) (es : List Entry)
    (destRoot pre : List String) : List FSOp × Option ExtErr :=
  let dirTarget := destRoot ++ stripPrefixOr dirPath pre
  if env.failCreate dirTarget then ([], some (ExtErr.createDir dirTarget))
  else
    let r := traceEntries env destRoot pre es
    (FSOp.mkdirAll dirTarget :: r.1, r.2)

/-- Model of the `all` expansion at the operating-system level (main.rs
lines 44-47): each top-level directory path is an OS string, either valid
UTF-8 (`some` of its text) or not (`none`); `to_str().unwrap()` panics on
`none`, modelled as the whole expansion producing `none` instead of a
name list. -/
def allExpansion : List (Option String) → Option (List String)
  | [] => some []
  | none :: _ => none
  | some s :: rest =>
    match allExpansion rest with
    | none => none
    | some l => some (s :: l)

theorem applyOps_nil (fs : FS) : applyOps fs [] = fs := rfl

theorem applyOps_cons (fs : FS) (op : FSOp) (W : List FSOp) :
    applyOps fs (op :: W) = applyOps (applyOp fs op) W := rfl

theorem applyOps_append (fs : FS) (W₁ W₂ : List FSOp) :
    applyOps fs (W₁ ++ W₂) = applyOps (applyOps fs W₁) W₂ := by
  simp [applyOps, List.foldl_append]

/-- Extraction is the replay of its trace: the entry loop applies exactly
the mutation sequence of `traceEntries` to the incoming filesystem and
stops at the same error. -/
theorem extractEntries_eq_trace (env : Env) (destRoot pre : List String) :
    ∀ (es : List Entry) (fs : FS),
      extractEntries env destRoot pre es fs =
        (applyOps fs (traceEntries env destRoot pre es).1,
          (traceEntries env destRoot pre es).2) := by
  intro es
  induction es using traceEntries.induct env destRoot pre with
  | case1 =>
    intro fs
    simp [extractEntries, traceEntries, applyOps_nil]
  | case2 p c rest pl hpath hfail =>
    intro fs
    have hp : destRoot ++ stripPrefixOr p pre = [] := hpath
    have hw : env.failWrite [] = true := hp ▸ hfail
    simp [extractEntries, traceEntries, hp, hw, applyOps_nil,
      -List.append_eq_nil]
  | case3 p c rest pl hpath hfail ih =>
    intro fs
    have hp : destRoot ++ stripPrefixOr p pre = [] := hpath
    have hw : ¬env.failWrite [] = true := hp ▸ hfail
    simp [extractEntries, traceEntries, hp, hw, ih,
      applyOps_cons, applyOp, -List.append_eq_nil]
  | case4 p c rest pl hpath gl hfail =>
    intro fs
    have hp : ¬destRoot ++ stripPrefixOr p pre = [] := hpath
    have hg : env.failCreate ((destRoot ++ stripPrefixOr p pre).dropLast) = true := hfail
    simp [extractEntries, traceEntries, hp, hg, applyOps_nil,
      -List.append_eq_nil]
  | case5 p c rest pl hpath gl hfailc hfailw =>
    intro fs
    have hp : ¬destRoot ++ stripPrefixOr p pre = [] := hpath
    have hg : ¬env.failCreate ((destRoot ++ stripPrefixOr p pre).dropLast) = true := hfailc
    have hw : env.failWrite (destRoot ++ stripPrefixOr p pre) = true := hfailw
    simp [extractEntries, traceEntries, hp, hg, hw,
      applyOps_cons, applyOps_nil, applyOp, -List.append_eq_nil]
  | case6 p c rest pl hpath gl hfailc hfailw ih =>
    intro fs
    have hp : ¬destRoot ++ stripPrefixOr p pre = [] := hpath
    have hg : ¬env.failCreate ((destRoot ++ stripPrefixOr p pre).dropLast) = true := hfailc
    have hw : ¬env.failWrite (destRoot ++ stripPrefixOr p pre) = true := hfailw
    simp [extractEntries, traceEntries, hp, hg, hw, ih,
      applyOps_cons, applyOp, -List.append_eq_nil]
  | case7 p children rest tl hfail =>
    intro fs
    have hg : env.failCreate (destRoot ++ stripPrefixOr p pre) = true := hfail
    simp [extractEntries, traceEntries, hg, applyOps_nil,
      -List.append_eq_nil]
  | case8 p children rest tl hfail ops err hchild ihc =>
    intro fs
    have hg : ¬env.failCreate (destRoot ++ stripPrefixOr p pre) = true := hfail
    simp [extractEntries, traceEntries, hg, hchild, ihc,
      applyOps_cons, applyOp, -List.append_eq_nil]
  | case9 p children rest tl hfail ops hchild ihc ihr =>
    intro fs
    have hg : ¬env.failCreate (destRoot ++ stripPrefixOr p pre) = true := hfail
    simp [extractEntries, traceEntries, hg, hchild, ihc, ihr,
      applyOps_cons, applyOp, applyOps_append, -List.append_eq_nil]

/-- `extract_dir` is the replay of its trace. -/
theorem extract_dir_eq_trace (env : Env) (dirPath : List String)
    (es : List Entry) (destRoot pre : List String) (fs : FS) :
    extract_dir env dirPath es destRoot pre fs =
      (applyOps fs (traceDir env dirPath es destRoot pre).1,
        (traceDir env dirPath es destRoot pre).2) := by
  simp only [extract_dir, traceDir]
  split
  · simp [applyOps_nil]
  · simp only [applyOps_cons, applyOp]
    exact extractEntries_eq_trace env destRoot pre es _

/-- The value a mutation sequence leaves at a file path, starting from a
given prior value. -/
def writeVal : List FSOp → List String → Option (List Nat) → Option (List Nat)
  | [], _, v => v
  | FSOp.write p c :: W, q, v => writeVal W q (if q = p then some c else v)
  | FSOp.mkdirAll _ :: W, q, v => writeVal W q v

/-- Whether a mutation sequence leaves a directory path existing, starting
from a given prior state. -/
def dirVal : List FSOp → List String → Bool → Bool
  | [], _, b => b
  | FSOp.write _ _ :: W, q, b => dirVal W q b
  | FSOp.mkdirAll p :: W, q, b => dirVal W q (q.isPrefixOf p || b)

/-- The write operations of a mutation sequence, as (path, bytes) pairs
in order. -/
def writesOf : List FSOp → List (List String × List Nat)
  | [] => []
  | FSOp.write p c :: W => (p, c) :: writesOf W
  | FSOp.mkdirAll _ :: W => writesOf W

/-- The value a sequence of (path, bytes) writes leaves at a path. -/
def assocVal : List (List String × List Nat) → List String →
    Option (List Nat) → Option (List Nat)
  | [], _, v => v
  | (p, c) :: L, q, v => assocVal L q (if q = p then some c else v)

theorem applyOps_files (W : List FSOp) : ∀ (fs : FS) (q : List String),
    (applyOps fs W).files q = writeVal W q (fs.files q) := by
  induction W with
  | nil => intro fs q; rfl
  | cons op W ih =>
    intro fs q
    cases op with
    | mkdirAll p => rw [applyOps_cons, ih]; rfl
    | write p c => rw [applyOps_cons, ih]; rfl

theorem applyOps_dirs (W : List FSOp) : ∀ (fs : FS) (q : List String),
    (applyOps fs W).dirs q = dirVal W q (fs.dirs q) := by
  induction W with
  | nil => intro fs q; rfl
  | cons op W ih =>
    intro fs q
    cases op with
    | mkdirAll p => rw [applyOps_cons, ih]; rfl
    | write p c => rw [applyOps_cons, ih]; rfl

theorem writeVal_idem (W : List FSOp) : ∀ (q : List String) (v : Option (List Nat)),
    writeVal W q (writeVal W q v) = writeVal W q v := by
  induction W with
  | nil => intro q v; rfl
  | cons op W ih =>
    intro q v
    cases op with
    | mkdirAll p => simp [writeVal, ih]
    | write p c =>
      by_cases h : q = p
      · simp [writeVal, h]
      · simp [writeVal, h, ih]

theorem dirVal_or (W : List FSOp) : ∀ (q : List String) (b : Bool),
    dirVal W q b = (b || dirVal W q false) := by
  induction W with
  | nil => intro q b; simp [dirVal]
  | cons op W ih =>
    intro q b
    cases op with
    | write p c =>
      simp only [dirVal]
      exact ih q b
    | mkdirAll p =>
      simp only [dirVal, Bool.or_false]
      rw [ih q (q.isPrefixOf p || b), ih q (q.isPrefixOf p)]
      cases b <;> cases q.isPrefixOf p <;> simp

theorem dirVal_idem (W : List FSOp) (q : List String) (b : Bool) :
    dirVal W q (dirVal W q b) = dirVal W q b := by
  rw [dirVal_or W q b, dirVal_or W q (b || dirVal W q false)]
  cases b <;> cases dirVal W q false <;> simp

theorem dirVal_true (W : List FSOp) : ∀ (q : List String),
    dirVal W q true = true := by
  induction W with
  | nil => intro q; rfl
  | cons op W ih =>
    intro q
    cases op with
    | write p c => simp [dirVal, ih]
    | mkdirAll p => simp [dirVal, ih]

theorem dirVal_mem_true (W : List FSOp) : ∀ (q t : List String) (b : Bool),
    FSOp.mkdirAll t ∈ W → q.isPrefixOf t = true → dirVal W q b = true := by
  induction W with
  | nil => intro q t b hmem; simp at hmem
  | cons op W ih =>
    intro q t b hmem hq
    rcases List.mem_cons.mp hmem with heq | htail
    · rw [← heq]
      simp [dirVal, hq, dirVal_true]
    · cases op with
      | write p c => simpa [dirVal] using ih q t b htail hq
      | mkdirAll p => simpa [dirVal] using ih q t _ htail hq

theorem writeVal_isSome (W : List FSOp) : ∀ (q : List String)
    (v : Option (List Nat)), v.isSome = true → (writeVal W q v).isSome = true := by
  induction W with
  | nil => intro q v h; exact h
  | cons op W ih =>
    intro q v h
    cases op with
    | mkdirAll p => exact ih q v h
    | write p c =>
      by_cases hq : q = p
      · simp only [writeVal, hq, if_pos rfl]
        exact ih p _ (by simp)
      · simp only [writeVal, if_neg hq]
        exact ih q v h

theorem writeVal_eq_assoc (W : List FSOp) : ∀ (q : List String)
    (v : Option (List Nat)), writeVal W q v = assocVal (writesOf W) q v := by
  induction W with
  | nil => intro q v; rfl
  | cons op W ih =>
    intro q v
    cases op with
    | mkdirAll p => simp [writeVal, writesOf, ih]
    | write p c => simp [writeVal, writesOf, assocVal, ih]

theorem assocVal_not_mem (L : List (List String × List Nat)) :
    ∀ (q : List String) (v : Option (List Nat)),
      q ∉ L.map Prod.fst → assocVal L q v = v := by
  induction L with
  | nil => intro q v _; rfl
  | cons pc L ih =>
    intro q v hq
    obtain ⟨p, c⟩ := pc
    simp only [List.map_cons, List.mem_cons, not_or] at hq
    simp only [assocVal, if_neg hq.1]
    exact ih q v hq.2

theorem assocVal_nodup_mem (L : List (List String × List Nat)) :
    ∀ (q : List String) (c : List Nat) (v : Option (List Nat)),
      (L.map Prod.fst).Nodup → (q, c) ∈ L → assocVal L q v = some c := by
  induction L with
  | nil => intro q c v _ hmem; simp at hmem
  | cons pc L ih =>
    intro q c v hnd hmem
    obtain ⟨p, c'⟩ := pc
    simp only [List.map_cons, List.nodup_cons] at hnd
    rcases List.mem_cons.mp hmem with heq | htail
    · have hq : q = p := congrArg Prod.fst heq
      have hc : c = c' := congrArg Prod.snd heq
      subst hq
      subst hc
      simp only [assocVal, if_pos rfl]
      exact assocVal_not_mem L q _ hnd.1
    · have hqp : q ≠ p := by
        intro h
        exact hnd.1 (h ▸ (List.mem_map_of_mem Prod.fst htail))
      simp only [assocVal, if_neg hqp]
      exact ih q c v hnd.2 htail

/-- All files of a subtree's entry list, recursively, in traversal order,
as (source path, bytes) pairs. -/
def entryFilesList : List Entry → List (List String × List Nat)
  | [] => []
  | Entry.file p c :: rest => (p, c) :: entryFilesList rest
  | Entry.dir _ children :: rest => entryFilesList children ++ entryFilesList rest

/-- All entry paths of a subtree's entry list, recursively: exactly the
paths fed to the strip-or-fallback computation for entries. -/
def entryPathsList : List Entry → List (List String)
  | [] => []
  | Entry.file p _ :: rest => p :: entryPathsList rest
  | Entry.dir p children :: rest =>
    p :: (entryPathsList children ++ entryPathsList rest)

/-- All directory paths of a subtree's entry list, recursively. -/
def entryDirPathsList : List Entry → List (List String)
  | [] => []
  | Entry.file _ _ :: rest => entryDirPathsList rest
  | Entry.dir p children :: rest =>
    p :: (entryDirPathsList children ++ entryDirPathsList rest)

theorem writesOf_append : ∀ (W₁ W₂ : List FSOp),
    writesOf (W₁ ++ W₂) = writesOf W₁ ++ writesOf W₂ := by
  intro W₁
  induction W₁ with
  | nil => intro W₂; rfl
  | cons op W ih =>
    intro W₂
    cases op with
    | mkdirAll p => simpa [writesOf] using ih W₂
    | write p c => simpa [writesOf] using ih W₂

/-- On success, the writes of the trace are exactly the subtree's files,
sent to their strip-or-fallback targets, in traversal order. -/
theorem traceEntries_success_writes (env : Env) (destRoot pre : List String) :
    ∀ es : List Entry, (traceEntries env destRoot pre es).2 = none →
      writesOf (traceEntries env destRoot pre es).1 =
        (entryFilesList es).map
          (fun pc => (destRoot ++ stripPrefixOr pc.1 pre, pc.2)) := by
  intro es
  induction es using traceEntries.induct env destRoot pre with
  | case1 =>
    intro _
    simp [traceEntries, entryFilesList, writesOf]
  | case2 p c rest pl hpath hfail =>
    intro h
    have hp : destRoot ++ stripPrefixOr p pre = [] := hpath
    have hw : env.failWrite [] = true := hp ▸ hfail
    simp [traceEntries, hp, hw, -List.append_eq_nil] at h
  | case3 p c rest pl hpath hfail ih =>
    intro h
    have hp : destRoot ++ stripPrefixOr p pre = [] := hpath
    have hw : ¬env.failWrite [] = true := hp ▸ hfail
    simp only [traceEntries, hp, hw, if_pos rfl, if_neg hw] at h ⊢
    simp only [writesOf, entryFilesList, List.map_cons]
    rw [ih h]
    simp [hp]
  | case4 p c rest pl hpath gl hfail =>
    intro h
    have hp : ¬destRoot ++ stripPrefixOr p pre = [] := hpath
    have hg : env.failCreate ((destRoot ++ stripPrefixOr p pre).dropLast) = true := hfail
    simp [traceEntries, hp, hg, -List.append_eq_nil] at h
  | case5 p c rest pl hpath gl hfailc hfailw =>
    intro h
    have hp : ¬destRoot ++ stripPrefixOr p pre = [] := hpath
    have hg : ¬env.failCreate ((destRoot ++ stripPrefixOr p pre).dropLast) = true := hfailc
    have hw : env.failWrite (destRoot ++ stripPrefixOr p pre) = true := hfailw
    simp [traceEntries, hp, hg, hw, -List.append_eq_nil] at h
  | case6 p c rest pl hpath gl hfailc hfailw ih =>
    intro h
    have hp : ¬destRoot ++ stripPrefixOr p pre = [] := hpath
    have hg : ¬env.failCreate ((destRoot ++ stripPrefixOr p pre).dropLast) = true := hfailc
    have hw : ¬env.failWrite (destRoot ++ stripPrefixOr p pre) = true := hfailw
    simp only [traceEntries, if_neg hp, if_neg hg, if_neg hw] at h ⊢
    simp only [writesOf, entryFilesList, List.map_cons]
    rw [ih h]
  | case7 p children rest tl hfail =>
    intro h
    have hg : env.failCreate (destRoot ++ stripPrefixOr p pre) = true := hfail
    simp [traceEntries, hg, -List.append_eq_nil] at h
  | case8 p children rest tl hfail ops err hchild ihc =>
    intro h
    have hg : ¬env.failCreate (destRoot ++ stripPrefixOr p pre) = true := hfail
    simp [traceEntries, hg, hchild, -List.append_eq_nil] at h
  | case9 p children rest tl hfail ops hchild ihc ihr =>
    intro h
    have hg : ¬env.failCreate (destRoot ++ stripPrefixOr p pre) = true := hfail
    simp only [traceEntries, if_neg hg, hchild] at h ⊢
    simp only [writesOf, writesOf_append, entryFilesList, List.map_append]
    rw [ihr h]
    have := ihc (by rw [hchild])
    rw [hchild] at this
    rw [this]

/-- On success, the trace contains a directory creation at every subtree
directory's strip-or-fallback target. -/
theorem traceEntries_success_mkdirs (env : Env) (destRoot pre : List String) :
    ∀ es : List Entry, (traceEntries env destRoot pre es).2 = none →
      ∀ dp ∈ entryDirPathsList es,
        FSOp.mkdirAll (destRoot ++ stripPrefixOr dp pre) ∈
          (traceEntries env destRoot pre es).1 := by
  intro es
  induction es using traceEntries.induct env destRoot pre with
  | case1 =>
    intro _ dp hdp
    simp [entryDirPathsList] at hdp
  | case2 p c rest pl hpath hfail =>
    intro h
    have hp : destRoot ++ stripPrefixOr p pre = [] := hpath
    have hw : env.failWrite [] = true := hp ▸ hfail
    simp [traceEntries, hp, hw, -List.append_eq_nil] at h
  | case3 p c rest pl hpath hfail ih =>
    intro h dp hdp
    have hp : destRoot ++ stripPrefixOr p pre = [] := hpath
    have hw : ¬env.failWrite [] = true := hp ▸ hfail
    simp only [traceEntries, hp, hw, if_pos rfl, if_neg hw] at h ⊢
    simp only [entryDirPathsList] at hdp
    exact List.mem_cons_of_mem _ (ih h dp hdp)
  | case4 p c rest pl hpath gl hfail =>
    intro h
    have hp : ¬destRoot ++ stripPrefixOr p pre = [] := hpath
    have hg : env.failCreate ((destRoot ++ stripPrefixOr p pre).dropLast) = true := hfail
    simp [traceEntries, hp, hg, -List.append_eq_nil] at h
  | case5 p c rest pl hpath gl hfailc hfailw =>
    intro h
    have hp : ¬destRoot ++ stripPrefixOr p pre = [] := hpath
    have hg : ¬env.failCreate ((destRoot ++ stripPrefixOr p pre).dropLast) = true := hfailc
    have hw : env.failWrite (destRoot ++ stripPrefixOr p pre) = true := hfailw
    simp [traceEntries, hp, hg, hw, -List.append_eq_nil] at h
  | case6 p c rest pl hpath gl hfailc hfailw ih =>
    intro h dp hdp
    have hp : ¬destRoot ++ stripPrefixOr p pre = [] := hpath
    have hg : ¬env.failCreate ((destRoot ++ stripPrefixOr p pre).dropLast) = true := hfailc
    have hw : ¬env.failWrite (destRoot ++ stripPrefixOr p pre) = true := hfailw
    simp only [traceEntries, if_neg hp, if_neg hg, if_neg hw] at h ⊢
    simp only [entryDirPathsList] at hdp
    exact List.mem_cons_of_mem _ (List.mem_cons_of_mem _ (ih h dp hdp))
  | case7 p children rest tl hfail =>
    intro h
    have hg : env.failCreate (destRoot ++ stripPrefixOr p pre) = true := hfail
    simp [traceEntries, hg, -List.append_eq_nil] at h
  | case8 p children rest tl hfail ops err hchild ihc =>
    intro h
    have hg : ¬env.failCreate (destRoot ++ stripPrefixOr p pre) = true := hfail
    simp [traceEntries, hg, hchild, -List.append_eq_nil] at h
  | case9 p children rest tl hfail ops hchild ihc ihr =>
    intro h dp hdp
    have hg : ¬env.failCreate (destRoot ++ stripPrefixOr p pre) = true := hfail
    simp only [traceEntries, if_neg hg, hchild] at h ⊢
    simp only [entryDirPathsList, List.mem_cons, List.mem_append] at hdp
    rcases hdp with heq | hchildmem | hrestmem
    · subst heq
      exact List.mem_cons_self _ _
    · have hmem := ihc (by rw [hchild]) dp hchildmem
      rw [hchild] at hmem
      exact List.mem_cons_of_mem _ (List.mem_append_left _ hmem)
    · exact List.mem_cons_of_mem _ (List.mem_append_right _ (ihr h dp hrestmem))

/-- Every subtree file's path occurs among the subtree's entry paths. -/
theorem filePath_mem_entryPaths : ∀ (es : List Entry)
    (pc : List String × List Nat), pc ∈ entryFilesList es →
      pc.1 ∈ entryPathsList es := by
  intro es
  induction es using entryFilesList.induct with
  | case1 => intro pc hpc; simp [entryFilesList] at hpc
  | case2 p c rest ih =>
    intro pc hpc
    simp only [entryFilesList, List.mem_cons] at hpc
    rcases hpc with heq | htail
    · subst heq; simp [entryPathsList]
    · simp only [entryPathsList, List.mem_cons]
      exact Or.inr (ih pc htail)
  | case3 p children rest ihc ihr =>
    intro pc hpc
    simp only [entryFilesList, List.mem_append] at hpc
    simp only [entryPathsList, List.mem_cons, List.mem_append]
    rcases hpc with hc | hr
    · exact Or.inr (Or.inl (ihc pc hc))
    · exact Or.inr (Or.inr (ihr pc hr))

/-- Every subtree directory's path occurs among the subtree's entry paths. -/
theorem dirPath_mem_entryPaths : ∀ (es : List Entry) (dp : List String),
    dp ∈ entryDirPathsList es → dp ∈ entryPathsList es := by
  intro es
  induction es using entryDirPathsList.induct with
  | case1 => intro dp hdp; simp [entryDirPathsList] at hdp
  | case2 p c rest ih =>
    intro dp hdp
    simp only [entryDirPathsList] at hdp
    simp only [entryPathsList, List.mem_cons]
    exact Or.inr (ih dp hdp)
  | case3 p children rest ihc ihr =>
    intro dp hdp
    simp only [entryDirPathsList, List.mem_cons, List.mem_append] at hdp
    simp only [entryPathsList, List.mem_cons, List.mem_append]
    rcases hdp with heq | hc | hr
    · exact Or.inl heq
    · exact Or.inr (Or.inl (ihc dp hc))
    · exact Or.inr (Or.inr (ihr dp hr))

theorem dirsOf_mem : ∀ (es : List Entry) (p : List String)
    (children : List Entry),
    (p, children) ∈ dirsOf es ↔ Entry.dir p children ∈ es := by
  intro es
  induction es with
  | nil => intro p children; simp [dirsOf]
  | cons e rest ih =>
    intro p children
    cases e with
    | file fp fc => simp [dirsOf, ih]
    | dir dp dc => simp [dirsOf, ih]

/-- C3: for every entry path visited during extraction, the target path is
computed by removing the strip prefix from the start of the entry's path
when it is a prefix of it (so prefix ++ result = original), and otherwise
using the unmodified path (a silent fallback, not an error), then joining
the result onto the destination root: a successfully written file lands
exactly at destinationRoot ++ stripPrefixOr path prefix. -/
theorem C3_target_path_computation :
    ∀ (p pre destRoot : List String),
      (pre <+: p →
        stripPrefixOr p pre = p.drop pre.length ∧
        pre ++ stripPrefixOr p pre = p) ∧
      (¬pre <+: p → stripPrefixOr p pre = p) ∧
      (∀ (env : Env) (c : List Nat) (fs : FS),
        (extractEntries env destRoot pre [Entry.file p c] fs).2 = none →
        (extractEntries env destRoot pre [Entry.file p c] fs).1.files
          (destRoot ++ stripPrefixOr p pre) = some c) := by
  intro p pre destRoot
  refine ⟨fun h => ?_, fun h => ?_, fun env c fs h => ?_⟩
  · have hb : pre.isPrefixOf p = true := List.isPrefixOf_iff_prefix.mpr h
    refine ⟨by simp [stripPrefixOr, hb], ?_⟩
    simp only [stripPrefixOr, hb, if_pos rfl]
    exact List.prefix_iff_eq_append.mp h
  · have hb : ¬pre.isPrefixOf p = true := fun hh =>
      h (List.isPrefixOf_iff_prefix.mp hh)
    simp [stripPrefixOr, hb]
  · simp only [extractEntries] at h ⊢
    split_ifs at h ⊢ <;> simp_all [extractEntries, FS.writeFile]

/-- Closed instance of C3: stripping ["a"] from ["a", "b"] leaves ["b"],
and a successful single-file extraction writes the bytes exactly at the
joined target. -/
theorem C3_target_path_computation_witness :
    stripPrefixOr ["a", "b"] ["a"] = ["b"] ∧
    (extractEntries okEnv ["d"] ["a"]
      [Entry.file ["a", "b"] [7]] emptyFS).1.files ["d", "b"] = some [7] := by
  constructor
  · exact ((C3_target_path_computation ["a", "b"] ["a"] ["d"]).1
      (by decide)).1
  · exact (C3_target_path_computation ["a", "b"] ["a"] ["d"]).2.2 okEnv [7]
      emptyFS (by simp [extractEntries, okEnv, stripPrefixOr])

/-- C4: the hidden-subdirectory search examines only the immediate child
directories of a directory's entry list, never recursing deeper: it
returns none exactly when no immediate child directory's final path
segment equals the name (under exact, case-sensitive string equality), and
any returned child is an immediate child directory whose final path
segment equals the name. -/
theorem C4_find_child_directory :
    ∀ (es : List Entry) (name : String),
      (findChildDirectory es name = none ↔
        ∀ (p : List String) (children : List Entry),
          Entry.dir p children ∈ es → ¬p.getLast? = some name) ∧
      (∀ d, findChildDirectory es name = some d →
        Entry.dir d.1 d.2 ∈ es ∧ d.1.getLast? = some name) := by
  intro es name
  constructor
  · rw [findChildDirectory, List.find?_eq_none]
    constructor
    · intro hall p children hmem hlast
      have hx := hall (p, children) ((dirsOf_mem es p children).mpr hmem)
      simp [hlast] at hx
    · intro hall d hd
      obtain ⟨p, children⟩ := d
      have hmem := (dirsOf_mem es p children).mp hd
      simpa using hall p children hmem
  · intro d hfind
    obtain ⟨p, children⟩ := d
    refine ⟨(dirsOf_mem es p children).mp
      (List.mem_of_find?_eq_some hfind), ?_⟩
    simpa using List.find?_some hfind

/-- Closed instance of C4: a directory tree whose only immediate child
directory is named ".X" yields no result for ".x" (exact, case-sensitive
comparison), even though a directory named ".x" exists one level deeper. -/
theorem C4_find_child_directory_witness :
    findChildDirectory
      [Entry.dir ["a", ".X"] [Entry.dir ["a", ".X", ".x"] []]] ".x" = none := by
  refine (C4_find_child_directory
    [Entry.dir ["a", ".X"] [Entry.dir ["a", ".X", ".x"] []]] ".x").1.mpr ?_
  intro p children hmem
  simp only [List.mem_cons, List.not_mem_nil, or_false] at hmem
  obtain ⟨hp, _⟩ := Entry.dir.inj hmem
  subst hp
  decide

/-- C5: whenever the all flag is given, the resolved provider list is
exactly the catalog's top-level directory names in catalog order, whatever
explicit provider names were also given (they are ignored). -/
theorem C5_all_flag_resolution :
    ∀ (catalog : List Entry) (provs : List String),
      providersToScaffold catalog ⟨provs, true⟩ =
        some (listTopLevelNames catalog) := by
  intro catalog provs
  simp [providersToScaffold]

/-- C7: an empty explicit provider list with the all flag not given makes
the scaffold operation return success at once, leaving the filesystem
untouched (zero writes) — it is not an error. -/
theorem C7_empty_selection_noop :
    ∀ (env : Env) (catalog : List Entry) (cwd : List String) (fs : FS),
      handle_scaffold env catalog ⟨[], false⟩ cwd fs = (fs, none) := by
  intro env catalog cwd fs
  simp [handle_scaffold, providersToScaffold]

/-- C10: the all expansion unwraps each top-level directory path's UTF-8
conversion: when every top-level path is valid UTF-8 the conversion never
panics and yields exactly the decoded names; the panic branch is reached
exactly when some top-level path is not valid UTF-8 (aborting by panic
rather than a reported error). -/
theorem C10_all_expansion_utf8 :
    ∀ tops : List (Option String),
      ((∀ t ∈ tops, t.isSome = true) →
        allExpansion tops = some (tops.filterMap id)) ∧
      (allExpansion tops = none → ∃ t ∈ tops, t = none) ∧
      ((∃ t ∈ tops, t = none) → allExpansion tops = none) := by
  intro tops
  induction tops with
  | nil => exact ⟨fun _ => rfl, by simp [allExpansion], by simp⟩
  | cons t rest ih =>
    refine ⟨fun hall => ?_, fun hnone => ?_, fun hex => ?_⟩
    · cases t with
      | none => exact absurd (hall none (List.mem_cons_self _ _)) (by simp)
      | some s =>
        have hr := ih.1 (fun x hx => hall x (List.mem_cons_of_mem _ hx))
        simp [allExpansion, hr]
    · cases t with
      | none => exact ⟨none, List.mem_cons_self _ _, rfl⟩
      | some s =>
        simp only [allExpansion] at hnone
        rcases hrest : allExpansion rest with _ | l
        · obtain ⟨x, hx, hxn⟩ := ih.2.1 hrest
          exact ⟨x, List.mem_cons_of_mem _ hx, hxn⟩
        · rw [hrest] at hnone
          simp at hnone
    · obtain ⟨x, hx, hxn⟩ := hex
      rcases List.mem_cons.mp hx with heq | htail
      · rw [← heq, hxn]
        rfl
      · cases t with
        | none => rfl
        | some s =>
          have hr := ih.2.2 ⟨x, htail, hxn⟩
          simp [allExpansion, hr]

/-- Closed instance of C10: a single valid UTF-8 top-level path expands
without panicking to its decoded name. -/
theorem C10_all_expansion_utf8_witness :
    allExpansion [some "acme"] = some ["acme"] :=
  (C10_all_expansion_utf8 [some "acme"]).1 (by decide)

/-- Any error the trace stops at names an operation and path at which the
environment indeed fails. -/
theorem traceEntries_err_envFails (env : Env) (destRoot pre : List String) :
    ∀ (es : List Entry) (err : ExtErr),
      (traceEntries env destRoot pre es).2 = some err →
      err.envFails env = true := by
  intro es
  induction es using traceEntries.induct env destRoot pre with
  | case1 => intro err h; simp [traceEntries] at h
  | case2 p c rest pl hpath hfail =>
    intro err h
    have hp : destRoot ++ stripPrefixOr p pre = [] := hpath
    have hw : env.failWrite [] = true := hp ▸ hfail
    simp [traceEntries, hp, hw, -List.append_eq_nil] at h
    subst h
    simpa [ExtErr.envFails] using hw
  | case3 p c rest pl hpath hfail ih =>
    intro err h
    have hp : destRoot ++ stripPrefixOr p pre = [] := hpath
    have hw : ¬env.failWrite [] = true := hp ▸ hfail
    simp only [traceEntries, hp, if_pos rfl, if_neg hw] at h
    exact ih err h
  | case4 p c rest pl hpath gl hfail =>
    intro err h
    have hp : ¬destRoot ++ stripPrefixOr p pre = [] := hpath
    have hg : env.failCreate ((destRoot ++ stripPrefixOr p pre).dropLast) = true := hfail
    simp [traceEntries, hp, hg, -List.append_eq_nil] at h
    subst h
    simpa [ExtErr.envFails] using hg
  | case5 p c rest pl hpath gl hfailc hfailw =>
    intro err h
    have hp : ¬destRoot ++ stripPrefixOr p pre = [] := hpath
    have hg : ¬env.failCreate ((destRoot ++ stripPrefixOr p pre).dropLast) = true := hfailc
    have hw : env.failWrite (destRoot ++ stripPrefixOr p pre) = true := hfailw
    simp [traceEntries, hp, hg, hw, -List.append_eq_nil] at h
    subst h
    simpa [ExtErr.envFails] using hw
  | case6 p c rest pl hpath gl hfailc hfailw ih =>
    intro err h
    have hp : ¬destRoot ++ stripPrefixOr p pre = [] := hpath
    have hg : ¬env.failCreate ((destRoot ++ stripPrefixOr p pre).dropLast) = true := hfailc
    have hw : ¬env.failWrite (destRoot ++ stripPrefixOr p pre) = true := hfailw
    simp only [traceEntries, if_neg hp, if_neg hg, if_neg hw] at h
    exact ih err h
  | case7 p children rest tl hfail =>
    intro err h
    have hg : env.failCreate (destRoot ++ stripPrefixOr p pre) = true := hfail
    simp [traceEntries, hg, -List.append_eq_nil] at h
    subst h
    simpa [ExtErr.envFails] using hg
  | case8 p children rest tl hfail ops e2 hchild ihc =>
    intro err h
    have hg : ¬env.failCreate (destRoot ++ stripPrefixOr p pre) = true := hfail
    simp [traceEntries, hg, hchild, -List.append_eq_nil] at h
    subst h
    exact ihc e2 (by rw [hchild])
  | case9 p children rest tl hfail ops hchild ihc ihr =>
    intro err h
    have hg : ¬env.failCreate (destRoot ++ stripPrefixOr p pre) = true := hfail
    simp only [traceEntries, if_neg hg, hchild] at h
    exact ihr err h

/-- C9: extraction is idempotent: running `extract_dir` a second time on
the filesystem the first run produced (with the unchanged catalog and
environment) stops at the same outcome and leaves exactly the same final
on-disk tree — directory creation is a no-op on pre-existing directories
and every file is rewritten with identical content. -/
theorem C9_extraction_idempotent :
    ∀ (env : Env) (dirPath : List String) (es : List Entry)
      (destRoot pre : List String) (fs : FS),
      ((extract_dir env dirPath es destRoot pre
          (extract_dir env dirPath es destRoot pre fs).1).2 =
        (extract_dir env dirPath es destRoot pre fs).2) ∧
      (∀ q, (extract_dir env dirPath es destRoot pre
          (extract_dir env dirPath es destRoot pre fs).1).1.files q =
        (extract_dir env dirPath es destRoot pre fs).1.files q) ∧
      (∀ q, (extract_dir env dirPath es destRoot pre
          (extract_dir env dirPath es destRoot pre fs).1).1.dirs q =
        (extract_dir env dirPath es destRoot pre fs).1.dirs q) := by
  intro env dirPath es destRoot pre fs
  have hfact := fun g => extract_dir_eq_trace env dirPath es destRoot pre g
  refine ⟨?_, fun q => ?_, fun q => ?_⟩
  · simp only [hfact]
  · simp only [hfact, applyOps_files]
    exact writeVal_idem _ q _
  · simp only [hfact, applyOps_dirs]
    exact dirVal_idem _ q _

/-- C8: when a directory creation or file write fails during extraction,
the returned wrapped error names an operation and path at which the
environment indeed fails; the failing entry aborts the run immediately —
the entries after it are never processed and the state at the failure is
returned unchanged; a provider whose extraction fails likewise aborts the
provider loop with that error, the remaining providers unprocessed; and
nothing already on disk is ever deleted by an extraction (no rollback):
existing directories stay and existing files keep some contents. -/
theorem C8_failure_behaviour :
    (∀ (env : Env) (dirPath : List String) (es : List Entry)
        (destRoot pre : List String) (fs fs' : FS) (err : ExtErr),
        extract_dir env dirPath es destRoot pre fs = (fs', some err) →
        err.envFails env = true) ∧
    (∀ (env : Env) (destRoot pre : List String) (e : Entry)
        (rest : List Entry) (fs fs' : FS) (err : ExtErr),
        extractEntries env destRoot pre [e] fs = (fs', some err) →
        extractEntries env destRoot pre (e :: rest) fs = (fs', some err)) ∧
    (∀ (env : Env) (catalog : List Entry) (name : String)
        (rest : List String) (cwd : List String) (fs fs' : FS) (err : ExtErr),
        scaffoldOne env catalog name cwd fs = (fs', some err) →
        scaffoldProviders env catalog (name :: rest) cwd fs =
          (fs', some err)) ∧
    (∀ (env : Env) (dirPath : List String) (es : List Entry)
        (destRoot pre : List String) (fs : FS),
        (∀ q, fs.dirs q = true →
          (extract_dir env dirPath es destRoot pre fs).1.dirs q = true) ∧
        (∀ q c, fs.files q = some c →
          ∃ c', (extract_dir env dirPath es destRoot pre fs).1.files q = some c')) := by
  refine ⟨?_, ?_, ?_, ?_⟩
  · intro env dirPath es destRoot pre fs fs' err h
    rw [extract_dir_eq_trace] at h
    have hr : (traceDir env dirPath es destRoot pre).2 = some err :=
      congrArg Prod.snd h
    by_cases hf : env.failCreate (destRoot ++ stripPrefixOr dirPath pre) = true
    · simp only [traceDir, if_pos hf, Option.some.injEq] at hr
      rw [← hr]
      simpa [ExtErr.envFails] using hf
    · simp only [traceDir, if_neg hf] at hr
      exact traceEntries_err_envFails env destRoot pre es err hr
  · intro env destRoot pre e rest fs fs' err h
    cases e with
    | file p c =>
      simp only [extractEntries] at h ⊢
      split_ifs at h ⊢ <;> simp_all [extractEntries]
    | dir p children =>
      simp only [extractEntries] at h ⊢
      by_cases hf : env.failCreate (destRoot ++ stripPrefixOr p pre) = true
      · simp only [if_pos hf] at h ⊢
        exact h
      · simp only [if_neg hf] at h ⊢
        rcases hc : extractEntries env destRoot pre children
          (fs.createDirAll (destRoot ++ stripPrefixOr p pre)) with ⟨fsc, rc⟩
        rw [hc] at h
        cases rc with
        | some e2 => exact h
        | none => simp at h
  · intro env catalog name rest cwd fs fs' err h
    simp [scaffoldProviders, h]
  · intro env dirPath es destRoot pre fs
    constructor
    · intro q hq
      rw [extract_dir_eq_trace]
      simp only [applyOps_dirs]
      rw [dirVal_or]
      simp [hq]
    · intro q c hc
      rw [extract_dir_eq_trace]
      simp only [applyOps_files]
      exact Option.isSome_iff_exists.mp
        (writeVal_isSome _ q (fs.files q) (by simp [hc]))

/-- Environment in which creating a directory named "boom" fails. -/
def failBoomEnv : Env := ⟨fun p => p == ["boom"], fun _ => false⟩

/-- Closed instance of C8: extracting a directory whose target is "boom"
under `failBoomEnv` stops with a wrapped error naming that path, and the
environment indeed fails at it. -/
theorem C8_failure_behaviour_witness :
    (ExtErr.createDir ["boom"]).envFails failBoomEnv = true :=
  C8_failure_behaviour.1 failBoomEnv ["boom"] [] [] [] emptyFS emptyFS
    (ExtErr.createDir ["boom"])
    (by simp [extract_dir, stripPrefixOr, failBoomEnv])

/-- Fuel-indexed twin of `extractEntries`, structurally recursive on the
fuel so that the kernel can evaluate it on concrete inputs; with fuel at
least the size of the entry list it computes exactly `extractEntries`
(see `extractEntriesF_eq`). -/
def extractEntriesF (env : Env) (destRoot pre : List String) :
    Nat → List Entry → FS → FS × Option ExtErr
  | 0, _, fs => (fs, none)
  | Nat.succ _, [], fs => (fs, none)
  | Nat.succ n, Entry.file p c :: rest, fs =>
    let path := destRoot ++ stripPrefixOr p pre
    if path = [] then
      if env.failWrite path then (fs, some (ExtErr.writeFile path))
      else extractEntriesF env destRoot pre n rest (fs.writeFile path c)
    else
      let parent := path.dropLast
      if env.failCreate parent then (fs, some (ExtErr.createParent parent))
      else
        let fs1 := fs.createDirAll parent
        if env.failWrite path then (fs1, some (ExtErr.writeFile path))
        else extractEntriesF env destRoot pre n rest (fs1.writeFile path c)
  | Nat.succ n, Entry.dir p children :: rest, fs =>
    let dirTarget := destRoot ++ stripPrefixOr p pre
    if env.failCreate dirTarget then (fs, some (ExtErr.createDir dirTarget))
    else
      match extractEntriesF env destRoot pre n children (fs.createDirAll dirTarget) with
      | (fs', none) => extractEntriesF env destRoot pre n rest fs'
      | (fs', some err) => (fs', some err)

theorem extractEntriesF_eq (env : Env) (destRoot pre : List String) :
    ∀ (n : Nat) (es : List Entry), sizeOf es ≤ n →
      ∀ fs, extractEntriesF env destRoot pre n es fs =
        extractEntries env destRoot pre es fs := by
  intro n
  induction n with
  | zero =>
    intro es h fs
    cases es with
    | nil => simp at h
    | cons e rest =>
      exfalso
      have := List.cons.sizeOf_spec e rest
      omega
  | succ n ih =>
    intro es h fs
    match es with
    | [] => simp [extractEntriesF, extractEntries]
    | Entry.file p c :: rest =>
      have hr : sizeOf rest ≤ n := by
        simp only [List.cons.sizeOf_spec, Entry.file.sizeOf_spec] at h
        omega
      simp only [extractEntriesF, extractEntries, ih rest hr]
    | Entry.dir p children :: rest =>
      have hc : sizeOf children ≤ n := by
        simp only [List.cons.sizeOf_spec, Entry.dir.sizeOf_spec] at h
        omega
      have hr : sizeOf rest ≤ n := by
        simp only [List.cons.sizeOf_spec, Entry.dir.sizeOf_spec] at h
        omega
      simp only [extractEntriesF, extractEntries, ih children hc, ih rest hr]

/-- Fuel-indexed twin of `get_dir`, structurally recursive on the fuel. -/
def get_dirF : Nat → List Entry → List String →
    Option (List String × List Entry)
  | 0, _, _ => none
  | Nat.succ _, [], _ => none
  | Nat.succ n, Entry.file _ _ :: rest, target => get_dirF n rest target
  | Nat.succ n, Entry.dir p children :: rest, target =>
    if p = target then some (p, children)
    else
      match get_dirF n children target with
      | some d => some d
      | none => get_dirF n rest target

theorem get_dirF_eq : ∀ (n : Nat) (es : List Entry) (target : List String),
    sizeOf es ≤ n → get_dirF n es target = get_dir es target := by
  intro n
  induction n with
  | zero =>
    intro es target h
    cases es with
    | nil => simp [get_dirF, get_dir]
    | cons e rest =>
      exfalso
      have := List.cons.sizeOf_spec e rest
      omega
  | succ n ih =>
    intro es target h
    match es with
    | [] => simp [get_dirF, get_dir]
    | Entry.file fp fc :: rest =>
      have hr : sizeOf rest ≤ n := by
        simp only [List.cons.sizeOf_spec, Entry.file.sizeOf_spec] at h
        omega
      simp only [get_dirF, get_dir, ih rest _ hr]
    | Entry.dir p children :: rest =>
      have hc : sizeOf children ≤ n := by
        simp only [List.cons.sizeOf_spec, Entry.dir.sizeOf_spec] at h
        omega
      have hr : sizeOf rest ≤ n := by
        simp only [List.cons.sizeOf_spec, Entry.dir.sizeOf_spec] at h
        omega
      simp only [get_dirF, get_dir, ih children _ hc, ih rest _ hr]

/-- The entry list of a directory entry of a list is smaller than the
list: directory sizes bound their children's sizes. -/
theorem dir_mem_sizeOf : ∀ (es : List Entry) (p : List String)
    (children : List Entry),
    Entry.dir p children ∈ es → sizeOf children ≤ sizeOf es := by
  intro es
  induction es with
  | nil => intro p children hmem; simp at hmem
  | cons e rest ih =>
    intro p children hmem
    rcases List.mem_cons.mp hmem with heq | htail
    · rw [← heq]
      simp only [List.cons.sizeOf_spec, Entry.dir.sizeOf_spec]
      omega
    · have := ih p children htail
      have hpos : 0 ≤ sizeOf e := Nat.zero_le _
      simp only [List.cons.sizeOf_spec]
      omega

/-- A directory found by `get_dir` is a subtree: its entry list is no
larger than the searched list. -/
theorem get_dir_sizeOf : ∀ (es : List Entry) (target : List String)
    (pd : List String × List Entry),
    get_dir es target = some pd → sizeOf pd.2 ≤ sizeOf es := by
  intro es target
  induction es, target using get_dir.induct with
  | case1 x =>
    intro pd h
    simp [get_dir] at h
  | case2 fp fc rest target ih =>
    intro pd h
    simp only [get_dir] at h
    have := ih pd h
    simp only [List.cons.sizeOf_spec]
    omega
  | case3 children rest target =>
    intro pd h
    simp only [get_dir, if_pos rfl] at h
    have hpd : pd = (target, children) := by simpa using h.symm
    subst hpd
    show sizeOf children ≤ sizeOf (Entry.dir target children :: rest)
    simp only [List.cons.sizeOf_spec, Entry.dir.sizeOf_spec]
    omega
  | case4 p children rest target hne d hsome ihc =>
    intro pd h
    simp only [get_dir, if_neg hne, hsome] at h
    have hpd : pd = d := by simpa using h.symm
    subst hpd
    have := ihc pd hsome
    simp only [List.cons.sizeOf_spec, Entry.dir.sizeOf_spec]
    omega
  | case5 p children rest target hne hnone ihc ihr =>
    intro pd h
    simp only [get_dir, if_neg hne, hnone] at h
    have := ihr pd h
    simp only [List.cons.sizeOf_spec]
    omega

/-- A directory found by `findChildDirectory` is an immediate child: its
entry list is no larger than the searched list. -/
theorem findChildDirectory_sizeOf (es : List Entry) (name : String)
    (hd : List String × List Entry) :
    findChildDirectory es name = some hd → sizeOf hd.2 ≤ sizeOf es := by
  intro h
  have hmem := (dirsOf_mem es hd.1 hd.2).mp (List.mem_of_find?_eq_some h)
  exact dir_mem_sizeOf es hd.1 hd.2 hmem

/-- Kernel-evaluable twin of `extract_dir`, taking an explicit fuel. -/
def extract_dirF (env : Env) (n : Nat) (dirPath : List String)
    (es : List Entry) (destRoot pre : List String) (fs : FS) :
    FS × Option ExtErr :=
  let dirTarget := destRoot ++ stripPrefixOr dirPath pre
  if env.failCreate dirTarget then (fs, some (ExtErr.createDir dirTarget))
  else extractEntriesF env destRoot pre n es (fs.createDirAll dirTarget)

theorem extract_dirF_eq (env : Env) (n : Nat) (dirPath : List String)
    (es : List Entry) (destRoot pre : List String) (fs : FS)
    (h : sizeOf es ≤ n) :
    extract_dirF env n dirPath es destRoot pre fs =
      extract_dir env dirPath es destRoot pre fs := by
  unfold extract_dirF extract_dir
  by_cases hf : env.failCreate (destRoot ++ stripPrefixOr dirPath pre) = true
  · simp only [if_pos hf]
  · simp only [if_neg hf]
    exact extractEntriesF_eq env destRoot pre n es h _

/-- Kernel-evaluable twin of `scaffoldOne`, taking an explicit fuel. -/
def scaffoldOneF (env : Env) (n : Nat) (catalog : List Entry) (name : String)
    (cwd : List String) (fs : FS) : FS × Option ExtErr :=
  match get_dirF n catalog (stringToPath name) with
  | none => (fs, none)
  | some pd =>
    match findChildDirectory pd.2 ("." ++ name) with
    | none => (fs, none)
    | some hd => extract_dirF env n hd.1 hd.2 cwd pd.1 fs

theorem scaffoldOneF_eq (env : Env) (n : Nat) (catalog : List Entry)
    (name : String) (cwd : List String) (fs : FS)
    (h : sizeOf catalog ≤ n) :
    scaffoldOneF env n catalog name cwd fs =
      scaffoldOne env catalog name cwd fs := by
  unfold scaffoldOneF scaffoldOne
  rw [get_dirF_eq n catalog _ h]
  rcases hg : get_dir catalog (stringToPath name) with _ | pd
  · rfl
  · show (match findChildDirectory pd.2 ("." ++ name) with
      | none => (fs, none)
      | some hd => extract_dirF env n hd.1 hd.2 cwd pd.1 fs) =
      (match findChildDirectory pd.2 ("." ++ name) with
      | none => (fs, none)
      | some hd => extract_dir env hd.1 hd.2 cwd pd.1 fs)
    rcases hf : findChildDirectory pd.2 ("." ++ name) with _ | hd
    · rfl
    · exact extract_dirF_eq env n hd.1 hd.2 cwd pd.1 fs
        (le_trans (findChildDirectory_sizeOf pd.2 ("." ++ name) hd hf)
          (le_trans (get_dir_sizeOf catalog (stringToPath name) pd hg) h))

/-- Kernel-evaluable twin of `scaffoldProviders`, taking an explicit fuel. -/
def scaffoldProvidersF (env : Env) (n : Nat) (catalog : List Entry)
    (names : List String) (cwd : List String) (fs : FS) : FS × Option ExtErr :=
  match names with
  | [] => (fs, none)
  | nm :: rest =>
    match scaffoldOneF env n catalog nm cwd fs with
    | (fs', none) => scaffoldProvidersF env n catalog rest cwd fs'
    | (fs', some err) => (fs', some err)

theorem scaffoldProvidersF_eq (env : Env) (n : Nat) (catalog : List Entry)
    (h : sizeOf catalog ≤ n) :
    ∀ (names : List String) (cwd : List String) (fs : FS),
      scaffoldProvidersF env n catalog names cwd fs =
        scaffoldProviders env catalog names cwd fs := by
  intro names
  induction names with
  | nil => intro cwd fs; rfl
  | cons nm rest ih =>
    intro cwd fs
    unfold scaffoldProvidersF scaffoldProviders
    rw [scaffoldOneF_eq env n catalog nm cwd fs h]
    rcases scaffoldOne env catalog nm cwd fs with ⟨fs', rc⟩
    cases rc with
    | none => exact ih cwd fs'
    | some err => rfl

/-- Kernel-evaluable twin of `handle_scaffold`, taking an explicit fuel. -/
def handle_scaffoldF (env : Env) (n : Nat) (catalog : List Entry)
    (args : ScaffoldArgs) (cwd : List String) (fs : FS) : FS × Option ExtErr :=
  match providersToScaffold catalog args with
  | none => (fs, none)
  | some names => scaffoldProvidersF env n catalog names cwd fs

theorem handle_scaffoldF_eq (env : Env) (n : Nat) (catalog : List Entry)
    (args : ScaffoldArgs) (cwd : List String) (fs : FS)
    (h : sizeOf catalog ≤ n) :
    handle_scaffoldF env n catalog args cwd fs =
      handle_scaffold env catalog args cwd fs := by
  unfold handle_scaffoldF handle_scaffold
  rcases providersToScaffold catalog args with _ | names
  · rfl
  · exact scaffoldProvidersF_eq env n catalog h names cwd fs

/-- C6: a requested provider that is absent from the catalog (or whose
resolved directory lacks the expected hidden subdirectory) causes zero
filesystem writes for that provider and no error: the loop continues with
the remaining providers on the unchanged filesystem, and a run consisting
of that provider alone still terminates with success. -/
theorem C6_unresolved_provider_skipped :
    ∀ (env : Env) (catalog : List Entry) (name : String)
      (rest : List String) (cwd : List String) (fs : FS),
      (∀ pd, get_dir catalog (stringToPath name) = some pd →
        findChildDirectory pd.2 ("." ++ name) = none) →
      scaffoldOne env catalog name cwd fs = (fs, none) ∧
      scaffoldProviders env catalog (name :: rest) cwd fs =
        scaffoldProviders env catalog rest cwd fs ∧
      handle_scaffold env catalog ⟨[name], false⟩ cwd fs = (fs, none) := by
  intro env catalog name rest cwd fs h
  have h1 : scaffoldOne env catalog name cwd fs = (fs, none) := by
    rcases hg : get_dir catalog (stringToPath name) with _ | pd
    · simp [scaffoldOne, hg]
    · simp [scaffoldOne, hg, h pd hg]
  refine ⟨h1, ?_, ?_⟩
  · simp [scaffoldProviders, h1]
  · simp [handle_scaffold, providersToScaffold, scaffoldProviders, h1]

/-- Closed instance of C6: requesting provider "zzz" against the empty
catalog leaves the filesystem untouched and returns no error. -/
theorem C6_unresolved_provider_skipped_witness :
    scaffoldOne okEnv [] "zzz" ["work"] emptyFS = (emptyFS, none) :=
  (C6_unresolved_provider_skipped okEnv [] "zzz" [] ["work"] emptyFS
    (fun pd hpd => by simp [get_dir] at hpd)).1

/-- The catalog of the spec's concrete scenario: a top-level directory
`acme` containing a hidden directory `.acme` containing `config.yaml`
whose bytes [120, 58, 32, 49] are the UTF-8 encoding of "x: 1". -/
def catalogC1 : List Entry :=
  [Entry.dir ["acme"]
    [Entry.dir ["acme", ".acme"]
      [Entry.file ["acme", ".acme", "config.yaml"] [120, 58, 32, 49]]]]

/-- C1 counterexample: scaffolding provider "acme" from the working
directory /work (component list ["work"]) over the scenario catalog
succeeds, but no file is written at /work/config.yaml, contrary to the
claim: the strip prefix handed to `extract_dir` is the provider directory
`acme`, not `acme/.acme`, so the hidden subdirectory's children do not
become the root of the extracted tree. -/
theorem C1_hidden_subdir_counterexample :
    (handle_scaffold okEnv catalogC1 ⟨["acme"], false⟩ ["work"] emptyFS).2 =
      none ∧
    (handle_scaffold okEnv catalogC1 ⟨["acme"], false⟩ ["work"] emptyFS).1.files
      ["work", "config.yaml"] = none := by
  have he := handle_scaffoldF_eq okEnv 1000000 catalogC1 ⟨["acme"], false⟩
    ["work"] emptyFS (by decide)
  constructor <;> (rw [← he]; decide)

/-- C1 amended: in the hidden-subdirectory variant, for the catalog
containing acme/.acme/config.yaml with content "x: 1", running scaffold
with provider "acme" from working directory /work succeeds and writes the
file at /work/.acme/config.yaml with content exactly "x: 1" (bytes
[120, 58, 32, 49]): the stripped prefix is the provider directory `acme`
only, so the hidden subdirectory itself, keeping its `.acme` name segment,
is recreated directly under the working directory. -/
theorem C1_hidden_subdir_extraction :
    (handle_scaffold okEnv catalogC1 ⟨["acme"], false⟩ ["work"] emptyFS).2 =
      none ∧
    (handle_scaffold okEnv catalogC1 ⟨["acme"], false⟩ ["work"] emptyFS).1.files
      ["work", ".acme", "config.yaml"] = some [120, 58, 32, 49] := by
  have he := handle_scaffoldF_eq okEnv 1000000 catalogC1 ⟨["acme"], false⟩
    ["work"] emptyFS (by decide)
  constructor <;> (rw [← he]; decide)

/-- C2 amended: when extraction succeeds, the subtree's file paths are
pairwise distinct, and the strip prefix is a prefix of every visited path
(the source directory's own path and every entry path — as holds for every
call the program makes, where the strip prefix is the provider directory's
path), then every directory of the subtree exists at its stripped target
under the destination root and every file of the subtree holds exactly its
source bytes at its stripped target. -/
theorem C2_roundtrip_fidelity :
    ∀ (env : Env) (dirPath : List String) (es : List Entry)
      (destRoot pre : List String) (fs fs' : FS),
      extract_dir env dirPath es destRoot pre fs = (fs', none) →
      ((entryFilesList es).map Prod.fst).Nodup →
      (∀ q ∈ dirPath :: entryPathsList es, pre.isPrefixOf q = true) →
      (∀ dp ∈ dirPath :: entryDirPathsList es,
        fs'.dirs (destRoot ++ dp.drop pre.length) = true) ∧
      (∀ pc ∈ entryFilesList es,
        fs'.files (destRoot ++ pc.1.drop pre.length) = some pc.2) := by
  intro env dirPath es destRoot pre fs fs' h hnd hpre
  rw [extract_dir_eq_trace] at h
  have hfs' : fs' = applyOps fs (traceDir env dirPath es destRoot pre).1 :=
    (congrArg Prod.fst h).symm
  have hr : (traceDir env dirPath es destRoot pre).2 = none :=
    congrArg Prod.snd h
  have hstrip : ∀ q, pre.isPrefixOf q = true →
      stripPrefixOr q pre = q.drop pre.length := by
    intro q hq
    simp [stripPrefixOr, hq]
  have hself : ∀ l : List String, l.isPrefixOf l = true := fun l =>
    List.isPrefixOf_iff_prefix.mpr (List.prefix_refl l)
  by_cases hf : env.failCreate (destRoot ++ stripPrefixOr dirPath pre) = true
  · simp [traceDir, hf] at hr
  · have hW : (traceDir env dirPath es destRoot pre).1 =
        FSOp.mkdirAll (destRoot ++ stripPrefixOr dirPath pre) ::
          (traceEntries env destRoot pre es).1 := by
      simp [traceDir, hf]
    have hr2 : (traceEntries env destRoot pre es).2 = none := by
      simpa [traceDir, hf] using hr
    constructor
    · intro dp hdp
      subst hfs'
      rw [applyOps_dirs, hW]
      rcases List.mem_cons.mp hdp with heq | htail
      · subst heq
        rw [hstrip dp (hpre dp (List.mem_cons_self _ _))]
        exact dirVal_mem_true _ _ _ _ (List.mem_cons_self _ _) (hself _)
      · have hmem := traceEntries_success_mkdirs env destRoot pre es hr2 dp htail
        rw [hstrip dp (hpre dp (List.mem_cons_of_mem _
          (dirPath_mem_entryPaths es dp htail)))] at hmem
        exact dirVal_mem_true _ _ _ _ (List.mem_cons_of_mem _ hmem) (hself _)
    · intro pc hpc
      subst hfs'
      rw [applyOps_files, writeVal_eq_assoc, hW]
      simp only [writesOf]
      rw [traceEntries_success_writes env destRoot pre es hr2]
      have hmapeq : (entryFilesList es).map
          (fun pc => (destRoot ++ stripPrefixOr pc.1 pre, pc.2)) =
          (entryFilesList es).map
            (fun pc => (destRoot ++ pc.1.drop pre.length, pc.2)) := by
        apply List.map_congr_left
        intro a ha
        rw [hstrip a.1 (hpre a.1 (List.mem_cons_of_mem _
          (filePath_mem_entryPaths es a ha)))]
      rw [hmapeq]
      apply assocVal_nodup_mem
      · rw [List.map_map]
        have hcomp : (entryFilesList es).map
            (Prod.fst ∘ fun pc => (destRoot ++ pc.1.drop pre.length, pc.2)) =
            ((entryFilesList es).map Prod.fst).map
              (fun x => destRoot ++ x.drop pre.length) := by
          rw [List.map_map]
          exact List.map_congr_left fun a _ => rfl
        rw [hcomp]
        apply List.Nodup.map_on ?_ hnd
        intro x hx y hy hxy
        obtain ⟨px, hpx, hxeq⟩ := List.mem_map.mp hx
        obtain ⟨py, hpy, hyeq⟩ := List.mem_map.mp hy
        have hprex : pre <+: x := List.isPrefixOf_iff_prefix.mp
          (hpre x (List.mem_cons_of_mem _ (hxeq ▸
            filePath_mem_entryPaths es px hpx)))
        have hprey : pre <+: y := List.isPrefixOf_iff_prefix.mp
          (hpre y (List.mem_cons_of_mem _ (hyeq ▸
            filePath_mem_entryPaths es py hpy)))
        have hdrop : x.drop pre.length = y.drop pre.length :=
          List.append_cancel_left hxy
        calc x = pre ++ x.drop pre.length :=
              (List.prefix_iff_eq_append.mp hprex).symm
          _ = pre ++ y.drop pre.length := by rw [hdrop]
          _ = y := List.prefix_iff_eq_append.mp hprey
      · exact List.mem_map_of_mem _ hpc

/-- Closed instance of C2: successfully extracting the hidden acme
subtree places config.yaml's exact bytes at its stripped target under the
destination root. -/
theorem C2_roundtrip_fidelity_witness :
    (extract_dir okEnv ["acme", ".acme"]
      [Entry.file ["acme", ".acme", "config.yaml"] [120, 58, 32, 49]]
      ["work"] ["acme"] emptyFS).1.files ["work", ".acme", "config.yaml"] =
      some [120, 58, 32, 49] := by
  have h2 : (extract_dir okEnv ["acme", ".acme"]
      [Entry.file ["acme", ".acme", "config.yaml"] [120, 58, 32, 49]]
      ["work"] ["acme"] emptyFS).2 = none := by
    rw [← extract_dirF_eq okEnv 1000000 ["acme", ".acme"]
      [Entry.file ["acme", ".acme", "config.yaml"] [120, 58, 32, 49]]
      ["work"] ["acme"] emptyFS (by decide)]
    decide
  exact (C2_roundtrip_fidelity okEnv ["acme", ".acme"]
      [Entry.file ["acme", ".acme", "config.yaml"] [120, 58, 32, 49]]
      ["work"] ["acme"] emptyFS _
      (Prod.ext_iff.mpr ⟨rfl, h2⟩)
      (by simp [entryFilesList])
      (by
        intro q hq
        simp only [entryPathsList, List.mem_cons, List.not_mem_nil,
          or_false] at hq
        rcases hq with rfl | rfl <;> decide)).2
    (["acme", ".acme", "config.yaml"], [120, 58, 32, 49])
    (by simp [entryFilesList])

/-- A source tree in which two distinct files collide on one destination:
the directory "a" holds the file a/c with bytes [1] and, through the
nested directory a/b/a, the file a/b/a/c with bytes [2]; stripping the
prefix a/b sends a/b/a/c to a/c while a/c itself falls back unmodified. -/
def collideTree : List Entry :=
  [Entry.file ["a", "c"] [1],
   Entry.dir ["a", "b"]
     [Entry.dir ["a", "b", "a"]
       [Entry.file ["a", "b", "a", "c"] [2]]]]

/-- C2 counterexample: for an arbitrary strip prefix the claim fails:
extracting directory "a" of `collideTree` with strip prefix a/b and empty
destination root succeeds, the source subtree contains the file a/c with
bytes [1] whose computed destination is a/c (fallback: the prefix does not
match), yet the destination file a/c ends up holding bytes [2] — the other
source file a/b/a/c was stripped to the same destination and overwrote it,
so an extracted file's content differs from its source content. -/
theorem C2_roundtrip_counterexample :
    (extract_dir okEnv ["a"] collideTree [] ["a", "b"] emptyFS).2 = none ∧
    (["a", "c"], [1]) ∈ entryFilesList collideTree ∧
    ([] : List String) ++ stripPrefixOr ["a", "c"] ["a", "b"] = ["a", "c"] ∧
    (extract_dir okEnv ["a"] collideTree [] ["a", "b"] emptyFS).1.files
      ["a", "c"] = some [2] ∧
    ¬(extract_dir okEnv ["a"] collideTree [] ["a", "b"] emptyFS).1.files
      ["a", "c"] = some [1] := by
  have he := extract_dirF_eq okEnv 1000000 ["a"] collideTree [] ["a", "b"]
    emptyFS (by decide)
  refine ⟨?_, ?_, ?_, ?_, ?_⟩
  · rw [← he]; decide
  · simp [collideTree, entryFilesList]
  · decide
  · rw [← he]; decide
  · rw [← he]; decide

end AiDlc
